import Mathlib

/-!
Verification development for the `find-projects.py` recent-projects
discovery script of the jetbrains-search-provider repository.

The script is embedded shallowly: pure string/path manipulation becomes
Lean functions on `String` / `List Char`; the filesystem, the process
environment and the external XML parser (`xml.etree.ElementTree`) are
modelled as an explicit `FS` record of oracles; Python exceptions become
an explicit `Except Err` monad threaded through the pipeline in the same
evaluation order as the script.
-/

/-! ## Path and string helpers (models of the `pathlib`/`str` operations
the script uses; implemented by structural recursion on the character
list so that concrete runs reduce inside the kernel) -/

/-- `str.split(sep)` for a one-character separator. -/
def splitOnChar (sep : Char) : List Char → List (List Char)
  | [] => [[]]
  | c :: t =>
    if c = sep then [] :: splitOnChar sep t
    else
      match splitOnChar sep t with
      | [] => [[c]]
      | h :: r => (c :: h) :: r

/-- Model of `pathlib` path joining `a / b` for a relative component `b`
(as used in the script: `config_dir / 'options'`, `project_dir / '.idea'`). -/
def joinPath (a b : String) : String :=
  match a.data.getLast? with
  | some '/' => String.mk (a.data ++ b.data)
  | _ => String.mk (a.data ++ '/' :: b.data)

/-- Model of `PurePath.name`: the final path component (empty for a root
or empty path).  Repeated and trailing slashes are collapsed as
`pathlib` does. -/
def baseName (s : String) : String :=
  String.mk (((((splitOnChar '/' s.data).filter (fun c => c ≠ [])).getLast?).getD []))

/-- Model of `PurePath.is_absolute` on POSIX: the path begins with `/`. -/
def isAbsolute (s : String) : Bool :=
  match s.data with
  | [] => false
  | c :: _ => c == '/'

/-- Model of `PurePath.parent`: drop the final path component. -/
def parentDir (s : String) : String :=
  if isAbsolute s then
    String.mk ('/' :: List.intercalate ['/']
      (((splitOnChar '/' s.data).filter (fun c => c ≠ [])).dropLast))
  else if ((splitOnChar '/' s.data).filter (fun c => c ≠ [])).length ≤ 1 then "."
  else
    String.mk (List.intercalate ['/']
      (((splitOnChar '/' s.data).filter (fun c => c ≠ [])).dropLast))

/-- Model of `Path.expanduser` for a given home directory: a leading `~`
component is replaced by `home`.  (`~user` forms, which the script's
inputs never contain, are left unchanged.) -/
def expanduser (home s : String) : String :=
  match s.data with
  | ['~'] => home
  | '~' :: '/' :: rest => String.mk (home.data ++ '/' :: rest)
  | _ => s

/-- The whitespace characters stripped by Python `str.strip()` (ASCII
range; the exotic Unicode space classes are outside the model). -/
def pyIsSpace (c : Char) : Bool :=
  c = ' ' || c = '\t' || c = '\n' || c = '\r' || c = '\x0b' || c = '\x0c'

/-- Model of `str.strip()`: drop leading and trailing whitespace. -/
def pyStrip (s : String) : String :=
  String.mk (((s.data.dropWhile pyIsSpace).reverse.dropWhile pyIsSpace).reverse)

/-! ## Exceptions and filesystem oracles -/

/-- The OS-level read failures distinguished by the script: it catches
`FileNotFoundError` and lets every other exception propagate. -/
inductive OSErrorKind
  | permissionDenied
  | isADirectory
  | unicodeDecodeError
deriving DecidableEq, Repr

/-- Outcome of `Path.read_text(encoding='utf-8')` on the filesystem oracle. -/
inductive ReadResult
  | ok (content : String)
  | fileNotFound
  | readError (k : OSErrorKind)
deriving DecidableEq, Repr

/-- `true` exactly for the read failures other than `FileNotFoundError`. -/
def ReadResult.isOtherError : ReadResult → Bool
  | .readError _ => true
  | _ => false

/-- The Python exceptions the pipeline can raise. -/
inductive Err
  | valueError (msg : String)
  | keyError (key : String)
  | xmlError (msg : String)
  | osError (k : OSErrorKind) (path : String)
deriving DecidableEq, Repr

/-- Model of `str(exc)` for each exception (`str` of a `KeyError` is the
quoted key; OS error texts are modelled, not byte-exact). -/
def Err.message : Err → String
  | .valueError m => m
  | .keyError k => "'" ++ k ++ "'"
  | .xmlError m => m
  | .osError .permissionDenied p => "[Errno 13] Permission denied: '" ++ p ++ "'"
  | .osError .isADirectory p => "[Errno 21] Is a directory: '" ++ p ++ "'"
  | .osError .unicodeDecodeError p => "invalid UTF-8 data in '" ++ p ++ "'"

/-- Model of `traceback.format_exc()`: a diagnostic trace string determined
by the raised exception (the Python frame listing is abstracted). -/
def Err.traceback (e : Err) : String :=
  "Traceback (most recent call last): " ++ e.message

/-- The portion of a parsed XML document that the script's two `findall`
queries observe: the attribute lists of the elements matched by
`.//option[@name="recentPaths"]/list/option` (legacy layout) and by
`.//component[@name="RecentProjectsManager"]/option[@name="additionalInfo"]/map/entry`
(modern layout).  The XPath engine itself is external library code. -/
structure XMLDoc where
  legacyElems : List (List (String × String))
  modernElems : List (List (String × String))
deriving DecidableEq

/-- Model of `el.attrib[k]` lookup (before the `KeyError` is raised). -/
def lookupAttr (k : String) : List (String × String) → Option String
  | [] => none
  | (a, v) :: t => if a = k then some v else lookupAttr k t

/-- The external world as the script observes it: home directory,
`XDG_CONFIG_HOME` (empty string when unset, as `environb.get(..., b'')`),
directory globbing, existence and file-kind tests, UTF-8 file reads, and
the external XML parser (`etree.parse`, whose failure is a parse error
message). -/
structure FS where
  home : String
  xdgConfigHome : String
  glob : String → String → List String
  pathExists : String → Bool
  isFile : String → Bool
  readText : String → ReadResult
  xmlDoc : String → Except String XMLDoc

/-! ## Product catalog -/

/-- `ProductInfo = namedtuple('ProductInfo', 'key config_glob base_dir')`. -/
structure ProductInfo where
  key : String
  config_glob : String
  base_dir : String
deriving DecidableEq, Repr

/-- The static `PRODUCTS` table of the script. -/
def PRODUCTS : List ProductInfo := [
  ⟨"idea", "IntelliJIdea*", "JetBrains"⟩,
  ⟨"idea-ce", "IdeaIC*", "JetBrains"⟩,
  ⟨"webstorm", "WebStorm*", "JetBrains"⟩,
  ⟨"clion", "CLion*", "JetBrains"⟩,
  ⟨"goland", "GoLand*", "JetBrains"⟩,
  ⟨"pycharm", "PyCharm*", "JetBrains"⟩,
  ⟨"phpstorm", "PhpStorm*", "JetBrains"⟩,
  ⟨"rider", "Rider*", "JetBrains"⟩,
  ⟨"android-studio", "AndroidStudio*", "Google"⟩]

/-! ## Version extractor

`product_version` runs `re.search(r'\d{1,4}\.\d{1,2}', config_dir.name)`.
The regex engine is external; its semantics for this concrete pattern —
leftmost match position, greedy counted repetition with backtracking —
is embedded directly below. -/

/-- Take exactly `n` leading decimal digits, or fail. -/
def takeDigits? (n : Nat) (cs : List Char) : Option (List Char × List Char) :=
  if (cs.take n).length = n && (cs.take n).all Char.isDigit
  then some (cs.take n, cs.drop n) else none

/-- The `\d\x7b1,2\x7d` tail of the pattern: greedily two digits, else one. -/
def matchTail (cs : List Char) : Option (List Char) :=
  match takeDigits? 2 cs with
  | some (b, _) => some b
  | none =>
    match takeDigits? 1 cs with
    | some (b, _) => some b
    | none => none

/-- Attempt the pattern with exactly `n` digits before the dot. -/
def matchWhole (n : Nat) (cs : List Char) : Option (List Char) :=
  match takeDigits? n cs with
  | none => none
  | some (a, rest) =>
    match rest with
    | '.' :: rest2 =>
      (match matchTail rest2 with
       | some b => some (a ++ '.' :: b)
       | none => none)
    | _ => none

/-- The pattern anchored at the start of `cs`: the integer part is greedy,
so four digits are tried first, down to one. -/
def matchVersionAt (cs : List Char) : Option (List Char) :=
  match matchWhole 4 cs with
  | some t => some t
  | none =>
    match matchWhole 3 cs with
    | some t => some t
    | none =>
      match matchWhole 2 cs with
      | some t => some t
      | none => matchWhole 1 cs

/-- `re.search`: try the anchored pattern at each position from the left. -/
def reSearch : List Char → Option (List Char)
  | [] => matchVersionAt []
  | c :: t =>
    match matchVersionAt (c :: t) with
    | some m => some m
    | none => reSearch t

/-- `int()` on a string of decimal digits. -/
def digitsToNat (cs : List Char) : Nat :=
  cs.foldl (fun n c => 10 * n + (c.toNat - '0'.toNat)) 0

/-- `product_version(config_dir)`: search the directory's base name for the
version token, split the match on the dot, and parse the two integers;
raise `ValueError` naming the full path when no token occurs.  (The two
defensive `ValueError` branches mirror the failures `int()` and tuple
unpacking could raise; they are unreachable for tokens produced by the
search.) -/
def product_version (config_dir : String) : Except Err (Nat × Nat) :=
  match reSearch (baseName config_dir).data with
  | some tok =>
    (match splitOnChar '.' tok with
     | [e, m] => .ok (digitsToNat e, digitsToNat m)
     | _ => .error (.valueError "not enough values to unpack"))
  | none => .error (.valueError ("Not a valid IDEA config directory: " ++ config_dir))

/-! ## Config directory resolver -/

/-- `XDG_CONFIG_HOME` if set and non-empty, else `<home>/.config`. -/
def configHome (fs : FS) : String :=
  if fs.xdgConfigHome = "" then joinPath fs.home ".config" else fs.xdgConfigHome

/-- `find_config_directories`: glob `product.config_glob` under
`<config root>/<product.base_dir>`. -/
def find_config_directories (product : ProductInfo) (fs : FS) : List String :=
  fs.glob (joinPath (configHome fs) product.base_dir) product.config_glob

/-- Python tuple comparison `a > b` on `(epoch, major)` pairs
(lexicographic). -/
def vGt (a b : Nat × Nat) : Bool :=
  decide (b.1 < a.1 ∨ (b.1 = a.1 ∧ b.2 < a.2))

/-- Lexicographic `≤` on version pairs, the order of the specification. -/
def vLe (a b : Nat × Nat) : Prop :=
  a.1 < b.1 ∨ (a.1 = b.1 ∧ a.2 ≤ b.2)

/-- The loop of Python's `max(iterable, key=...)` once an initial best is
fixed: the key is computed for every element (errors propagate in
iteration order) and the best is replaced only on strict `>`. -/
def pyMaxAux (key : String → Except Err (Nat × Nat)) (best : String)
    (bk : Nat × Nat) : List String → Except Err String
  | [] => .ok best
  | x :: xs =>
    match key x with
    | .error e => .error e
    | .ok k =>
      if vGt k bk then pyMaxAux key x k xs else pyMaxAux key best bk xs

/-- `max(iterable, key=..., default=None)`: `none` on an empty iterable,
otherwise the first element seeds the running best. -/
def pyMax (key : String → Except Err (Nat × Nat)) :
    List String → Except Err (Option String)
  | [] => .ok none
  | x :: xs =>
    match key x with
    | .error e => .error e
    | .ok k =>
      match pyMaxAux key x k xs with
      | .error e => .error e
      | .ok best => .ok (some best)

/-- The selection step of `find_latest_recent_projects_file`:
`max(find_config_directories(product), key=product_version, default=None)`. -/
def selectConfigDir (product : ProductInfo) (fs : FS) : Except Err (Option String) :=
  pyMax product_version (find_config_directories product fs)

/-- `find_latest_recent_projects_file`: select the config directory, then
locate `options/recentProjects.xml` (for `rider`: `recentSolutions.xml`)
and return it only if it exists. -/
def find_latest_recent_projects_file (product : ProductInfo) (fs : FS) :
    Except Err (Option String) :=
  match selectConfigDir product fs with
  | .error e => .error e
  | .ok none => .ok none
  | .ok (some config_dir) =>
    .ok (if fs.pathExists
           (joinPath (joinPath config_dir "options")
             (if product.key = "rider" then "recentSolutions.xml" else "recentProjects.xml"))
         then some (joinPath (joinPath config_dir "options")
             (if product.key = "rider" then "recentSolutions.xml" else "recentProjects.xml"))
         else none)

/-! ## Project resolver -/

/-- The full output record built by `get_project`. -/
structure ProjectRecord where
  id : String
  name : String
  path : String
  abspath : String
deriving DecidableEq, Repr

/-- The `.idea/.name` marker file path computed by `get_project`: the
project root is the ORIGINAL path's parent when the expanded path is a
regular file, else the original path itself. -/
def namefileOf (fs : FS) (path : String) : String :=
  joinPath
    (joinPath (if fs.isFile (expanduser fs.home path) then parentDir path else path) ".idea")
    ".name"

/-- `get_project`: read the marker file (falling back to the path's base
name only on `FileNotFoundError`; other read failures propagate) and
build the record with its namespaced id. -/
def get_project (fs : FS) (product : ProductInfo) (path : String) :
    Except Err ProjectRecord :=
  match fs.readText (namefileOf fs path) with
  | .ok content =>
    .ok ⟨"jetbrains-search-provider-" ++ product.key ++ "-" ++ expanduser fs.home path,
         pyStrip content, path, expanduser fs.home path⟩
  | .fileNotFound =>
    .ok ⟨"jetbrains-search-provider-" ++ product.key ++ "-" ++ expanduser fs.home path,
         baseName path, path, expanduser fs.home path⟩
  | .readError k => .error (.osError k (namefileOf fs path))

/-! ## Registry parser -/

/-- Sequential effectful map in the `Except` monad: the embedding of
Python's loops and comprehensions over fallible element operations
(first failure wins, in iteration order). -/
def exceptMapM {α β : Type} (f : α → Except Err β) : List α → Except Err (List β)
  | [] => .ok []
  | x :: xs =>
    match f x with
    | .error e => .error e
    | .ok y =>
      match exceptMapM f xs with
      | .error e => .error e
      | .ok ys => .ok (y :: ys)

/-- `str.replace` scan for the literal token `$USER_HOME$`: replace each
(non-overlapping) occurrence, left to right. -/
def replaceUserHomeL : List Char → List Char
  | '$' :: 'U' :: 'S' :: 'E' :: 'R' :: '_' :: 'H' :: 'O' :: 'M' :: 'E' :: '$' :: rest =>
    '~' :: replaceUserHomeL rest
  | c :: rest => c :: replaceUserHomeL rest
  | [] => []

/-- `s.replace('$USER_HOME$', '~')`. -/
def replaceUserHome (s : String) : String :=
  String.mk (replaceUserHomeL s.data)

/-- One legacy element's contribution:
`el.attrib['value'].replace('$USER_HOME$', '~')`, raising
`KeyError('value')` when the attribute is missing. -/
def legacyAttr (attrs : List (String × String)) : Except Err String :=
  match lookupAttr "value" attrs with
  | some v => .ok (replaceUserHome v)
  | none => .error (.keyError "value")

/-- One modern entry's contribution:
`el.attrib['key'].replace('$USER_HOME$', '~')`, raising
`KeyError('key')` when the attribute is missing. -/
def modernAttr (attrs : List (String × String)) : Except Err String :=
  match lookupAttr "key" attrs with
  | some v => .ok (replaceUserHome v)
  | none => .error (.keyError "key")

/-- Legacy layout extraction over all matched legacy elements. -/
def extract_legacy (doc : XMLDoc) : Except Err (List String) :=
  exceptMapM legacyAttr doc.legacyElems

/-- Modern layout extraction over all matched entries. -/
def extract_modern (doc : XMLDoc) : Except Err (List String) :=
  exceptMapM modernAttr doc.modernElems

/-- The path set of `find_recent_projects`: the legacy paths collected
into a set, then updated with the modern paths (set semantics embedded
as deduplication of the concatenation). -/
def extract_paths (doc : XMLDoc) : Except Err (List String) :=
  match extract_legacy doc with
  | .error e => .error e
  | .ok l1 =>
    match extract_modern doc with
    | .error e => .error e
    | .ok l2 => .ok (l1 ++ l2).dedup

/-- `find_recent_projects`: parse the registry file, extract the path
set, and resolve each path whose expanded form exists. -/
def find_recent_projects (product : ProductInfo) (file : String) (fs : FS) :
    Except Err (List ProjectRecord) :=
  match fs.xmlDoc file with
  | .error m => .error (.xmlError m)
  | .ok doc =>
    match extract_paths doc with
    | .error e => .error e
    | .ok paths =>
      exceptMapM (get_project fs product)
        (paths.filter (fun p => fs.pathExists (expanduser fs.home p)))

/-! ## Aggregator and boundary -/

/-- The result envelope printed by `main`: the `success(...)` or
`error(...)` JSON object. -/
inductive Envelope
  | success (projects : List (String × List ProjectRecord))
  | error (message : String) (traceback : String)
deriving DecidableEq, Repr

/-- One iteration of the `find_all_recent_projects` loop for a product. -/
def product_projects (product : ProductInfo) (fs : FS) :
    Except Err (String × List ProjectRecord) :=
  match find_latest_recent_projects_file product fs with
  | .error e => .error e
  | .ok none => .ok (product.key, [])
  | .ok (some config_file) =>
    match find_recent_projects product config_file fs with
    | .error e => .error e
    | .ok ps => .ok (product.key, ps)

/-- `list(find_all_recent_projects())`: the per-product pairs in catalog
order, any raised exception propagating. -/
def find_all_recent_projects (fs : FS) :
    Except Err (List (String × List ProjectRecord)) :=
  exceptMapM (fun p => product_projects p fs) PRODUCTS

/-- `main()`: the envelope printed and the process exit status (`sys.exit(1)`
in the handler, implicit `0` otherwise). -/
def main_run (fs : FS) : Envelope × Nat :=
  match find_all_recent_projects fs with
  | .ok projects => (Envelope.success projects, 0)
  | .error e => (Envelope.error e.message e.traceback, 1)

/-! ## Infrastructure lemmas -/

theorem exceptMapM_nil {α β : Type} (f : α → Except Err β) :
    exceptMapM f [] = .ok [] := rfl

theorem exceptMapM_ok_forall₂ {α β : Type} (f : α → Except Err β) :
    ∀ (l : List α) (out : List β), exceptMapM f l = .ok out →
      List.Forall₂ (fun a b => f a = .ok b) l out := by
  intro l
  induction l with
  | nil =>
    intro out h
    simp only [exceptMapM, Except.ok.injEq] at h
    subst h
    exact List.Forall₂.nil
  | cons x xs ih =>
    intro out h
    simp only [exceptMapM] at h
    cases hfx : f x with
    | error e => rw [hfx] at h; exact Except.noConfusion h
    | ok y =>
      rw [hfx] at h
      cases hrec : exceptMapM f xs with
      | error e => rw [hrec] at h; exact Except.noConfusion h
      | ok ys =>
        rw [hrec] at h
        simp only [Except.ok.injEq] at h
        subst h
        exact List.Forall₂.cons hfx (ih ys hrec)

theorem forall₂_ok_mem_iff {α β : Type} (f : α → Except Err β) :
    ∀ (l : List α) (out : List β),
      List.Forall₂ (fun a b => f a = .ok b) l out →
        ∀ b, (b ∈ out ↔ ∃ a ∈ l, f a = .ok b) := by
  intro l out h
  induction h with
  | nil => simp
  | @cons a b l' out' hab _ ih =>
    intro c
    simp only [List.mem_cons, ih c]
    constructor
    · rintro (rfl | ⟨a', ha', hfa'⟩)
      · exact ⟨a, Or.inl rfl, hab⟩
      · exact ⟨a', Or.inr ha', hfa'⟩
    · rintro ⟨a', (rfl | ha'), hfa'⟩
      · left
        rw [hab] at hfa'
        exact (Except.ok.injEq _ _).mp hfa'.symm
      · right
        exact ⟨a', ha', hfa'⟩

theorem exceptMapM_error_of_mem {α β : Type} (f : α → Except Err β) :
    ∀ (l : List α) (a : α) (e : Err), a ∈ l → f a = .error e →
      ∃ e', exceptMapM f l = .error e' := by
  intro l
  induction l with
  | nil => intro a e ha; exact absurd ha (List.not_mem_nil a)
  | cons x xs ih =>
    intro a e ha hfa
    simp only [exceptMapM]
    cases hfx : f x with
    | error e' => exact ⟨e', rfl⟩
    | ok y =>
      rcases List.mem_cons.mp ha with rfl | ha'
      · rw [hfx] at hfa; exact Except.noConfusion hfa
      · obtain ⟨e', he'⟩ := ih a e ha' hfa
        rw [he']
        exact ⟨e', rfl⟩

/-! ### Version order lemmas -/

theorem vLe_refl (a : Nat × Nat) : vLe a a := by
  unfold vLe; omega

theorem vGt_false_iff (a b : Nat × Nat) : vGt a b = false ↔ vLe a b := by
  simp only [vGt, vLe, decide_eq_false_iff_not]
  omega

theorem vGt_true_vLe (a b : Nat × Nat) : vGt a b = true → vLe b a := by
  simp only [vGt, vLe, decide_eq_true_eq]
  omega

theorem vLe_trans (a b c : Nat × Nat) : vLe a b → vLe b c → vLe a c := by
  unfold vLe; omega

/-! ### `max(..., key=...)` lemmas -/

theorem pyMaxAux_ok_spec (key : String → Except Err (Nat × Nat)) :
    ∀ (l : List String) (best : String) (bk : Nat × Nat), key best = .ok bk →
      ∀ r, pyMaxAux key best bk l = .ok r →
        ∃ rv, key r = .ok rv ∧ (r = best ∨ r ∈ l) ∧ vLe bk rv ∧
          ∀ c ∈ l, ∀ v, key c = .ok v → vLe v rv := by
  intro l
  induction l with
  | nil =>
    intro best bk hbest r hr
    simp only [pyMaxAux, Except.ok.injEq] at hr
    subst hr
    exact ⟨bk, hbest, Or.inl rfl, vLe_refl bk, by simp⟩
  | cons x xs ih =>
    intro best bk hbest r hr
    simp only [pyMaxAux] at hr
    split at hr
    · exact Except.noConfusion hr
    · next k hkx =>
      split at hr
      · next hgt =>
        obtain ⟨rv, hkr, hmem, hle, hall⟩ := ih x k hkx r hr
        refine ⟨rv, hkr, ?_, ?_, ?_⟩
        · rcases hmem with rfl | h
          · exact Or.inr (List.mem_cons_self _ _)
          · exact Or.inr (List.mem_cons_of_mem _ h)
        · exact vLe_trans bk k rv (vGt_true_vLe k bk hgt) hle
        · intro c hc v hv
          rcases List.mem_cons.mp hc with rfl | hc'
          · rw [hkx] at hv
            cases hv
            exact hle
          · exact hall c hc' v hv
      · next hgt =>
        have hkb : vLe k bk := (vGt_false_iff k bk).mp (Bool.not_eq_true _ ▸ (by simpa using hgt))
        obtain ⟨rv, hkr, hmem, hle, hall⟩ := ih best bk hbest r hr
        refine ⟨rv, hkr, ?_, hle, ?_⟩
        · rcases hmem with rfl | h
          · exact Or.inl rfl
          · exact Or.inr (List.mem_cons_of_mem _ h)
        · intro c hc v hv
          rcases List.mem_cons.mp hc with rfl | hc'
          · rw [hkx] at hv
            cases hv
            exact vLe_trans k bk rv hkb hle
          · exact hall c hc' v hv

theorem pyMaxAux_ok_of_all (key : String → Except Err (Nat × Nat)) :
    ∀ (l : List String) (best : String) (bk : Nat × Nat),
      (∀ c ∈ l, ∃ v, key c = .ok v) →
      ∃ r, pyMaxAux key best bk l = .ok r := by
  intro l
  induction l with
  | nil => intro best bk _; exact ⟨best, rfl⟩
  | cons y ys ihy =>
    intro best bk hall
    obtain ⟨ky, hky⟩ := hall y (List.mem_cons_self _ _)
    have hall' : ∀ c ∈ ys, ∃ v, key c = .ok v :=
      fun c hc => hall c (List.mem_cons_of_mem _ hc)
    simp only [pyMaxAux, hky]
    by_cases hgt : vGt ky bk = true
    · rw [if_pos hgt]; exact ihy y ky hall'
    · rw [if_neg hgt]; exact ihy best bk hall'

theorem pyMax_ok_spec (key : String → Except Err (Nat × Nat))
    (l : List String) (hne : l ≠ [])
    (hall : ∀ c ∈ l, ∃ v, key c = .ok v) :
    ∃ best bv, pyMax key l = .ok (some best) ∧ best ∈ l ∧
      key best = .ok bv ∧ ∀ c ∈ l, ∀ v, key c = .ok v → vLe v bv := by
  cases l with
  | nil => exact absurd rfl hne
  | cons x xs =>
    obtain ⟨k, hk⟩ := hall x (List.mem_cons_self _ _)
    obtain ⟨best, hres⟩ := pyMaxAux_ok_of_all key xs x k
      (fun c hc => hall c (List.mem_cons_of_mem _ hc))
    obtain ⟨rv, hkr, hmem, hle, hallv⟩ := pyMaxAux_ok_spec key xs x k hk best hres
    refine ⟨best, rv, ?_, ?_, hkr, ?_⟩
    · simp only [pyMax, hk, hres]
    · rcases hmem with rfl | h
      · exact List.mem_cons_self _ _
      · exact List.mem_cons_of_mem _ h
    · intro c hc v hv
      rcases List.mem_cons.mp hc with rfl | hc'
      · rw [hk] at hv
        cases hv
        exact hle
      · exact hallv c hc' v hv

theorem pyMaxAux_error_of_mem (key : String → Except Err (Nat × Nat)) :
    ∀ (l : List String) (c : String) (e : Err), c ∈ l → key c = .error e →
      ∀ (best : String) (bk : Nat × Nat),
        ∃ e', pyMaxAux key best bk l = .error e' := by
  intro l
  induction l with
  | nil => intro c e hc; exact absurd hc (List.not_mem_nil c)
  | cons y ys ihy =>
    intro c e hc hkc best bk
    cases hky : key y with
    | error e'' => exact ⟨e'', by simp only [pyMaxAux, hky]⟩
    | ok ky =>
      have hc' : c ∈ ys := by
        rcases List.mem_cons.mp hc with rfl | h
        · rw [hky] at hkc; exact Except.noConfusion hkc
        · exact h
      by_cases hgt : vGt ky bk = true
      · obtain ⟨e', he'⟩ := ihy c e hc' hkc y ky
        exact ⟨e', by simp only [pyMaxAux, hky, if_pos hgt]; exact he'⟩
      · obtain ⟨e', he'⟩ := ihy c e hc' hkc best bk
        exact ⟨e', by simp only [pyMaxAux, hky, if_neg hgt]; exact he'⟩

theorem pyMax_error_of_mem (key : String → Except Err (Nat × Nat)) :
    ∀ (l : List String) (c : String) (e : Err), c ∈ l → key c = .error e →
      ∃ e', pyMax key l = .error e' := by
  intro l
  cases l with
  | nil => intro c e hc; exact absurd hc (List.not_mem_nil c)
  | cons x xs =>
    intro c e hc hkc
    cases hkx : key x with
    | error e' => exact ⟨e', by simp only [pyMax, hkx]⟩
    | ok k =>
      have hc' : c ∈ xs := by
        rcases List.mem_cons.mp hc with rfl | h
        · rw [hkx] at hkc; exact Except.noConfusion hkc
        · exact h
      obtain ⟨e', he'⟩ := pyMaxAux_error_of_mem key xs c e hc' hkc x k
      exact ⟨e', by simp only [pyMax, hkx, he']⟩

/-! ### Boundary propagation helpers -/

theorem main_run_of_find_all_error (fs : FS) (e : Err)
    (h : find_all_recent_projects fs = .error e) :
    main_run fs = (Envelope.error e.message e.traceback, 1) := by
  simp only [main_run, h]

theorem main_run_of_product_error (fs : FS) (p : ProductInfo) (e : Err)
    (hp : p ∈ PRODUCTS) (h : product_projects p fs = .error e) :
    ∃ msg tb, main_run fs = (Envelope.error msg tb, 1) := by
  obtain ⟨e', he'⟩ :=
    exceptMapM_error_of_mem (fun p => product_projects p fs) PRODUCTS p e hp h
  exact ⟨e'.message, e'.traceback,
    main_run_of_find_all_error fs e' he'⟩

/-! ### Pipeline unfolding helpers -/

theorem find_latest_of_select_error (p : ProductInfo) (fs : FS) (e : Err)
    (h : selectConfigDir p fs = .error e) :
    find_latest_recent_projects_file p fs = .error e := by
  simp only [find_latest_recent_projects_file, h]

theorem find_latest_of_select_none (p : ProductInfo) (fs : FS)
    (h : selectConfigDir p fs = .ok none) :
    find_latest_recent_projects_file p fs = .ok none := by
  simp only [find_latest_recent_projects_file, h]

theorem product_projects_of_latest_error (p : ProductInfo) (fs : FS) (e : Err)
    (h : find_latest_recent_projects_file p fs = .error e) :
    product_projects p fs = .error e := by
  simp only [product_projects, h]

theorem product_projects_of_recent_error (p : ProductInfo) (fs : FS) (cf : String) (e : Err)
    (h1 : find_latest_recent_projects_file p fs = .ok (some cf))
    (h2 : find_recent_projects p cf fs = .error e) :
    product_projects p fs = .error e := by
  simp only [product_projects, h1, h2]

theorem find_recent_of_xml_error (p : ProductInfo) (cf : String) (fs : FS) (m : String)
    (h : fs.xmlDoc cf = .error m) :
    find_recent_projects p cf fs = .error (.xmlError m) := by
  simp only [find_recent_projects, h]

theorem find_recent_of_paths_error (p : ProductInfo) (cf : String) (fs : FS)
    (doc : XMLDoc) (e : Err)
    (h1 : fs.xmlDoc cf = .ok doc) (h2 : extract_paths doc = .error e) :
    find_recent_projects p cf fs = .error e := by
  simp only [find_recent_projects, h1, h2]

theorem find_recent_of_get_error (p : ProductInfo) (cf : String) (fs : FS)
    (doc : XMLDoc) (paths : List String) (path : String) (e : Err)
    (h1 : fs.xmlDoc cf = .ok doc) (h2 : extract_paths doc = .ok paths)
    (h3 : path ∈ paths)
    (h4 : fs.pathExists (expanduser fs.home path) = true)
    (h5 : get_project fs p path = .error e) :
    ∃ e', find_recent_projects p cf fs = .error e' := by
  have hmem : path ∈ paths.filter (fun q => fs.pathExists (expanduser fs.home q)) :=
    List.mem_filter.mpr ⟨h3, h4⟩
  obtain ⟨e', he'⟩ :=
    exceptMapM_error_of_mem (get_project fs p) _ path e hmem h5
  exact ⟨e', by simp only [find_recent_projects, h1, h2]; exact he'⟩

theorem exceptMapM_ok_all {α β : Type} (f : α → Except Err β) :
    ∀ (l : List α) (out : List β), exceptMapM f l = .ok out →
      ∀ a ∈ l, ∃ b, f a = .ok b := by
  intro l
  induction l with
  | nil => intro out _ a ha; exact absurd ha (List.not_mem_nil a)
  | cons x xs ih =>
    intro out h a ha
    simp only [exceptMapM] at h
    split at h
    · exact Except.noConfusion h
    · next y hfx =>
      split at h
      · exact Except.noConfusion h
      · next ys hys =>
        rcases List.mem_cons.mp ha with rfl | ha'
        · exact ⟨y, hfx⟩
        · exact ih ys hys a ha'

theorem exceptMapM_error_src {α β : Type} (f : α → Except Err β) :
    ∀ (l : List α) (e : Err), exceptMapM f l = .error e →
      ∃ a ∈ l, f a = .error e := by
  intro l
  induction l with
  | nil => intro e h; simp only [exceptMapM] at h; exact Except.noConfusion h
  | cons x xs ih =>
    intro e h
    simp only [exceptMapM] at h
    split at h
    · next e' hfx =>
      cases h
      exact ⟨x, List.mem_cons_self _ _, hfx⟩
    · next y hfx =>
      split at h
      · next e' hys =>
        cases h
        obtain ⟨a, ha, hfa⟩ := ih e hys
        exact ⟨a, List.mem_cons_of_mem _ ha, hfa⟩
      · exact Except.noConfusion h

theorem extract_legacy_error_shape (doc : XMLDoc) (e : Err)
    (h : extract_legacy doc = .error e) : e = .keyError "value" := by
  obtain ⟨a, _, hfa⟩ := exceptMapM_error_src _ _ e h
  cases hl : lookupAttr "value" a with
  | some v =>
    simp only [legacyAttr, hl] at hfa
    exact Except.noConfusion hfa
  | none =>
    simp only [legacyAttr, hl, Except.error.injEq] at hfa
    exact hfa.symm

theorem extract_modern_error_shape (doc : XMLDoc) (e : Err)
    (h : extract_modern doc = .error e) : e = .keyError "key" := by
  obtain ⟨a, _, hfa⟩ := exceptMapM_error_src _ _ e h
  cases hl : lookupAttr "key" a with
  | some v =>
    simp only [modernAttr, hl] at hfa
    exact Except.noConfusion hfa
  | none =>
    simp only [modernAttr, hl, Except.error.injEq] at hfa
    exact hfa.symm

/-! ## Concrete filesystem fixtures for witnesses and counterexamples -/

/-- The first catalog entry (IntelliJ IDEA Ultimate). -/
def prodIdea : ProductInfo := ⟨"idea", "IntelliJIdea*", "JetBrains"⟩

/-- A world with no config directories at all. -/
def fsEmpty : FS :=
  ⟨"/home/u", "", fun _ _ => [], fun _ => false, fun _ => false,
   fun _ => .fileNotFound, fun _ => .error "no such file"⟩

/-- A world whose only IDEA candidate directory has no version token. -/
def fsMalformed : FS :=
  ⟨"/home/u", "",
   fun _ pat => if pat = "IntelliJIdea*" then ["/home/u/.config/JetBrains/IntelliJIdeaFoo"] else [],
   fun _ => false, fun _ => false,
   fun _ => .fileNotFound, fun _ => .error "no such file"⟩

/-- A world with one versioned IDEA directory whose registry file exists
but is not well-formed XML. -/
def fsBadXml : FS :=
  ⟨"/home/u", "",
   fun _ pat => if pat = "IntelliJIdea*" then ["/home/u/.config/JetBrains/IntelliJIdea2023.1"] else [],
   fun _ => true, fun _ => false,
   fun _ => .fileNotFound, fun _ => .error "not well-formed (invalid token)"⟩

/-- A world whose registry parses to one legacy element carrying no
attributes at all. -/
def fsNoAttr : FS :=
  ⟨"/home/u", "",
   fun _ pat => if pat = "IntelliJIdea*" then ["/home/u/.config/JetBrains/IntelliJIdea2023.1"] else [],
   fun _ => true, fun _ => false,
   fun _ => .fileNotFound, fun _ => .ok ⟨[[]], []⟩⟩

/-- A world whose registry lists one project whose `.idea/.name` marker
file exists but is unreadable (permission denied). -/
def fsDeniedName : FS :=
  ⟨"/home/u", "",
   fun _ pat => if pat = "IntelliJIdea*" then ["/home/u/.config/JetBrains/IntelliJIdea2023.1"] else [],
   fun _ => true, fun _ => false,
   fun s => if s = "/proj/.idea/.name" then .readError .permissionDenied else .fileNotFound,
   fun _ => .ok ⟨[[("value", "/proj")]], []⟩⟩

/-- A world with a readable `.idea/.name` marker for `/proj`. -/
def fsNamed : FS :=
  ⟨"/home/u", "", fun _ _ => [], fun _ => true, fun _ => false,
   fun s => if s = "/proj/.idea/.name" then .ok "  My App\n" else .fileNotFound,
   fun _ => .error "no such file"⟩

/-- A world with two versioned IDEA candidate directories, 2023.1 and
2023.3. -/
def fsTwoVersions : FS :=
  ⟨"/home/u", "",
   fun _ pat => if pat = "IntelliJIdea*"
     then ["/home/u/.config/JetBrains/IntelliJIdea2023.1",
           "/home/u/.config/JetBrains/IntelliJIdea2023.3"]
     else [],
   fun _ => false, fun _ => false,
   fun _ => .fileNotFound, fun _ => .error "no such file"⟩

/-- A world whose registry names the same project once through the
`$USER_HOME$` shorthand and once by its absolute path. -/
def fsTwoSpellings : FS :=
  ⟨"/home/u", "",
   fun _ pat => if pat = "IntelliJIdea*" then ["/home/u/.config/JetBrains/IntelliJIdea2023.1"] else [],
   fun _ => true, fun _ => false,
   fun _ => .fileNotFound,
   fun _ => .ok ⟨[[("value", "$USER_HOME$/foo")], [("value", "/home/u/foo")]], []⟩⟩

/-! ## Claim theorems -/

/-- Helper for Claim C5: one loop iteration of the aggregator yields the
product's own key, and the empty project list whenever no registry file
was located. -/
theorem product_projects_ok_shape (p : ProductInfo) (fs : FS)
    (pr : String × List ProjectRecord) (h : product_projects p fs = .ok pr) :
    pr.1 = p.key ∧
      (find_latest_recent_projects_file p fs = .ok none → pr.2 = []) := by
  simp only [product_projects] at h
  split at h
  · exact Except.noConfusion h
  · cases h
    exact ⟨rfl, fun _ => rfl⟩
  · next cf hl =>
    split at h
    · exact Except.noConfusion h
    · next ps hr =>
      cases h
      refine ⟨rfl, fun hn => ?_⟩
      rw [hl] at hn
      simp at hn

/-- Claim C5: a successful run's payload pairs up with the catalog
one-to-one and in order: the i-th pair carries the i-th product's key,
and a product whose registry file was not located contributes an empty
project list.  No product is omitted. -/
theorem c5_success_payload_complete (fs : FS) (l : List (String × List ProjectRecord))
    (h : main_run fs = (Envelope.success l, 0)) :
    List.Forall₂
      (fun p pr => pr.1 = p.key ∧
        (find_latest_recent_projects_file p fs = .ok none → pr.2 = []))
      PRODUCTS l := by
  have hfa : find_all_recent_projects fs = .ok l := by
    simp only [main_run] at h
    split at h
    · next projects hok =>
      simp only [Prod.mk.injEq, Envelope.success.injEq, and_true] at h
      exact h ▸ hok
    · next e herr =>
      simp at h
  exact List.Forall₂.imp
    (fun a b hpp => product_projects_ok_shape a fs b hpp)
    (exceptMapM_ok_forall₂ (fun p => product_projects p fs) PRODUCTS l hfa)

/-- Witness for C5: the empty world succeeds with one empty-list pair per
catalog product. -/
theorem c5_success_payload_complete_witness :
    List.Forall₂
      (fun p pr => pr.1 = p.key ∧
        (find_latest_recent_projects_file p fsEmpty = .ok none → pr.2 = []))
      PRODUCTS
      ([("idea", []), ("idea-ce", []), ("webstorm", []), ("clion", []),
        ("goland", []), ("pycharm", []), ("phpstorm", []), ("rider", []),
        ("android-studio", [])] : List (String × List ProjectRecord)) :=
  c5_success_payload_complete fsEmpty
    ([("idea", []), ("idea-ce", []), ("webstorm", []), ("clion", []),
      ("goland", []), ("pycharm", []), ("phpstorm", []), ("rider", []),
      ("android-studio", [])] : List (String × List ProjectRecord)) (by rfl)

/-- Claim C4: a registry file that fails to parse — and, generally, any
exception escaping the pipeline — makes the run emit the error envelope
with a non-zero status, discarding per-product results; an
exception-free pipeline emits the success envelope with status zero. -/
theorem c4_error_envelope_boundary (fs : FS) :
    (∀ p ∈ PRODUCTS, ∀ cf m,
      find_latest_recent_projects_file p fs = .ok (some cf) →
      fs.xmlDoc cf = .error m →
      ∃ msg tb, main_run fs = (Envelope.error msg tb, 1)) ∧
    (∀ e, find_all_recent_projects fs = .error e →
      main_run fs = (Envelope.error e.message e.traceback, 1)) ∧
    (∀ l, find_all_recent_projects fs = .ok l →
      main_run fs = (Envelope.success l, 0)) := by
  refine ⟨?_, ?_, ?_⟩
  · intro p hp cf m hlatest hxml
    exact main_run_of_product_error fs p _ hp
      (product_projects_of_recent_error p fs cf _ hlatest
        (find_recent_of_xml_error p cf fs m hxml))
  · intro e he
    exact main_run_of_find_all_error fs e he
  · intro l hl
    simp only [main_run, hl]

/-- Witness for C4: an unparseable registry file for IDEA turns the whole
run into the error envelope and exit status 1. -/
theorem c4_error_envelope_boundary_witness :
    ∃ msg tb, main_run fsBadXml = (Envelope.error msg tb, 1) :=
  (c4_error_envelope_boundary fsBadXml).1 prodIdea (by decide)
    "/home/u/.config/JetBrains/IntelliJIdea2023.1/options/recentProjects.xml"
    "not well-formed (invalid token)" (by rfl) (by rfl)

/-- Claim C9: an element matched by either schema selector but lacking
the expected attribute raises a `KeyError`, which aborts the entire run
into the error envelope instead of being skipped. -/
theorem c9_missing_attribute_aborts (fs : FS) (p : ProductInfo) (cf : String) (doc : XMLDoc)
    (hp : p ∈ PRODUCTS)
    (hlatest : find_latest_recent_projects_file p fs = .ok (some cf))
    (hdoc : fs.xmlDoc cf = .ok doc)
    (hmiss : (∃ attrs ∈ doc.legacyElems, lookupAttr "value" attrs = none) ∨
             (∃ attrs ∈ doc.modernElems, lookupAttr "key" attrs = none)) :
    (∃ k, find_recent_projects p cf fs = .error (Err.keyError k)) ∧
    ∃ msg tb, main_run fs = (Envelope.error msg tb, 1) := by
  have hpaths : ∃ k, extract_paths doc = .error (Err.keyError k) := by
    cases hleg : extract_legacy doc with
    | error e =>
      have hsh := extract_legacy_error_shape doc e hleg
      subst hsh
      exact ⟨"value", by simp only [extract_paths, hleg]⟩
    | ok l1 =>
      cases hmod : extract_modern doc with
      | error e =>
        have hsh := extract_modern_error_shape doc e hmod
        subst hsh
        exact ⟨"key", by simp only [extract_paths, hleg, hmod]⟩
      | ok l2 =>
        exfalso
        rcases hmiss with ⟨attrs, ha, hnone⟩ | ⟨attrs, ha, hnone⟩
        · obtain ⟨b, hb⟩ := exceptMapM_ok_all _ doc.legacyElems l1 hleg attrs ha
          simp only [legacyAttr, hnone] at hb
          exact Except.noConfusion hb
        · obtain ⟨b, hb⟩ := exceptMapM_ok_all _ doc.modernElems l2 hmod attrs ha
          simp only [modernAttr, hnone] at hb
          exact Except.noConfusion hb
  obtain ⟨k, hk⟩ := hpaths
  have hfr : find_recent_projects p cf fs = .error (Err.keyError k) :=
    find_recent_of_paths_error p cf fs doc _ hdoc hk
  exact ⟨⟨k, hfr⟩,
    main_run_of_product_error fs p _ hp
      (product_projects_of_recent_error p fs cf _ hlatest hfr)⟩

/-- Witness for C9: a legacy element with no attributes aborts the run. -/
theorem c9_missing_attribute_aborts_witness :
    (∃ k, find_recent_projects prodIdea
      "/home/u/.config/JetBrains/IntelliJIdea2023.1/options/recentProjects.xml"
      fsNoAttr = .error (Err.keyError k)) ∧
    ∃ msg tb, main_run fsNoAttr = (Envelope.error msg tb, 1) :=
  c9_missing_attribute_aborts fsNoAttr prodIdea
    "/home/u/.config/JetBrains/IntelliJIdea2023.1/options/recentProjects.xml"
    ⟨[[]], []⟩ (by decide) (by rfl) (by rfl)
    (Or.inl ⟨[], List.mem_cons_self _ _, rfl⟩)

/-- Claim C10: only `FileNotFoundError` on the `.idea/.name` marker falls
back to the path's final component; any other read failure becomes an
exception that propagates out of the resolver and aborts the whole run
into the error envelope. -/
theorem c10_marker_read_failure (fs : FS) (product : ProductInfo) (path : String) :
    (fs.readText (namefileOf fs path) = .fileNotFound →
      get_project fs product path =
        .ok ⟨"jetbrains-search-provider-" ++ product.key ++ "-" ++ expanduser fs.home path,
             baseName path, path, expanduser fs.home path⟩) ∧
    (∀ k, fs.readText (namefileOf fs path) = .readError k →
      get_project fs product path = .error (.osError k (namefileOf fs path))) ∧
    (∀ cf doc paths e,
      product ∈ PRODUCTS →
      find_latest_recent_projects_file product fs = .ok (some cf) →
      fs.xmlDoc cf = .ok doc →
      extract_paths doc = .ok paths →
      path ∈ paths →
      fs.pathExists (expanduser fs.home path) = true →
      get_project fs product path = .error e →
      ∃ msg tb, main_run fs = (Envelope.error msg tb, 1)) := by
  refine ⟨?_, ?_, ?_⟩
  · intro h
    simp only [get_project, h]
  · intro k h
    simp only [get_project, h]
  · intro cf doc paths e hp hlatest hdoc hpaths hmem hex hget
    obtain ⟨e', he'⟩ :=
      find_recent_of_get_error product cf fs doc paths path e hdoc hpaths hmem hex hget
    exact main_run_of_product_error fs product e' hp
      (product_projects_of_recent_error product fs cf e' hlatest he')

/-- Witness for C10: a permission-denied `.idea/.name` marker aborts the
whole run. -/
theorem c10_marker_read_failure_witness :
    ∃ msg tb, main_run fsDeniedName = (Envelope.error msg tb, 1) :=
  (c10_marker_read_failure fsDeniedName prodIdea "/proj").2.2
    "/home/u/.config/JetBrains/IntelliJIdea2023.1/options/recentProjects.xml"
    ⟨[[("value", "/proj")]], []⟩ ["/proj"]
    (.osError .permissionDenied "/proj/.idea/.name")
    (by decide) (by rfl) (by rfl) (by rfl)
    (List.mem_cons_self _ _) (by rfl) (by rfl)

/-- Claim C3: for a candidate path whose expanded form exists, the record
name is the marker file's stripped content when the marker is readable,
and the original path's final component when it is absent. -/
theorem c3_project_name_resolution (fs : FS) (product : ProductInfo) (path : String)
    (hex : fs.pathExists (expanduser fs.home path) = true) :
    (∀ content, fs.readText (namefileOf fs path) = .ok content →
      ∃ r, get_project fs product path = .ok r ∧ r.name = pyStrip content) ∧
    (fs.readText (namefileOf fs path) = .fileNotFound →
      ∃ r, get_project fs product path = .ok r ∧ r.name = baseName path) := by
  constructor
  · intro content h
    exact ⟨⟨"jetbrains-search-provider-" ++ product.key ++ "-" ++ expanduser fs.home path,
            pyStrip content, path, expanduser fs.home path⟩,
           by simp only [get_project, h], rfl⟩
  · intro h
    exact ⟨⟨"jetbrains-search-provider-" ++ product.key ++ "-" ++ expanduser fs.home path,
            baseName path, path, expanduser fs.home path⟩,
           by simp only [get_project, h], rfl⟩

/-- Witness for C3: the marker content `"  My App\n"` resolves to the
name `"My App"`, and with no marker a path resolves to its final
component. -/
theorem c3_project_name_resolution_witness :
    (∃ r, get_project fsNamed prodIdea "/proj" = .ok r ∧
      r.name = pyStrip "  My App\n") ∧
    (∃ r, get_project fsNamed prodIdea "/other/proj2" = .ok r ∧
      r.name = baseName "/other/proj2") :=
  ⟨(c3_project_name_resolution fsNamed prodIdea "/proj" (by rfl)).1
      "  My App\n" (by rfl),
   (c3_project_name_resolution fsNamed prodIdea "/other/proj2" (by rfl)).2
      (by rfl)⟩

/-- Claim C8: with a non-empty, fully versioned candidate list the
resolver selects a candidate whose version pair is lexicographically
maximal; with zero candidates it selects none and locates no registry
file. -/
theorem c8_select_maximum_version (product : ProductInfo) (fs : FS) :
    (find_config_directories product fs ≠ [] →
      (∀ c ∈ find_config_directories product fs, ∃ v, product_version c = .ok v) →
      ∃ best bv, selectConfigDir product fs = .ok (some best) ∧
        best ∈ find_config_directories product fs ∧
        product_version best = .ok bv ∧
        ∀ c ∈ find_config_directories product fs, ∀ v,
          product_version c = .ok v → vLe v bv) ∧
    (find_config_directories product fs = [] →
      selectConfigDir product fs = .ok none ∧
      find_latest_recent_projects_file product fs = .ok none) := by
  constructor
  · intro hne hall
    exact pyMax_ok_spec product_version _ hne hall
  · intro hnil
    have hsel : selectConfigDir product fs = .ok none := by
      simp only [selectConfigDir, hnil, pyMax]
    exact ⟨hsel, find_latest_of_select_none product fs hsel⟩

/-- Witness for C8: between versions 2023.1 and 2023.3 a maximal
candidate is selected. -/
theorem c8_select_maximum_version_witness :
    ∃ best bv, selectConfigDir prodIdea fsTwoVersions = .ok (some best) ∧
      best ∈ find_config_directories prodIdea fsTwoVersions ∧
      product_version best = .ok bv ∧
      ∀ c ∈ find_config_directories prodIdea fsTwoVersions, ∀ v,
        product_version c = .ok v → vLe v bv :=
  (c8_select_maximum_version prodIdea fsTwoVersions).1 (by decide)
    (by
      intro c hc
      rw [show find_config_directories prodIdea fsTwoVersions =
          ["/home/u/.config/JetBrains/IntelliJIdea2023.1",
           "/home/u/.config/JetBrains/IntelliJIdea2023.3"] from rfl] at hc
      rcases List.mem_cons.mp hc with rfl | hc'
      · exact ⟨(2023, 1), by rfl⟩
      · rcases List.mem_cons.mp hc' with rfl | hc''
        · exact ⟨(2023, 3), by rfl⟩
        · exact absurd hc'' (List.not_mem_nil c))

/-- Counterexample for C1: a single candidate directory without a version
token is NOT silently excluded — the extraction error propagates out of
`max(...)` and the whole run hard-fails with the error envelope and exit
status 1, instead of yielding an empty selection for the product. -/
theorem c1_counterexample :
    find_config_directories prodIdea fsMalformed =
      ["/home/u/.config/JetBrains/IntelliJIdeaFoo"] ∧
    product_version "/home/u/.config/JetBrains/IntelliJIdeaFoo" =
      .error (.valueError
        "Not a valid IDEA config directory: /home/u/.config/JetBrains/IntelliJIdeaFoo") ∧
    main_run fsMalformed =
      (Envelope.error
        "Not a valid IDEA config directory: /home/u/.config/JetBrains/IntelliJIdeaFoo"
        "Traceback (most recent call last): Not a valid IDEA config directory: /home/u/.config/JetBrains/IntelliJIdeaFoo",
       1) :=
  ⟨rfl, rfl, rfl⟩

/-- Claim C1 (amended): a candidate whose directory name lacks a version
token makes version extraction raise, and the error propagates out of
selection: whenever any candidate of a catalog product is malformed, the
run aborts into the error envelope with non-zero status (an empty
selection arises only from zero candidates, per C8). -/
theorem c1_amended_malformed_candidate_aborts (fs : FS) (p : ProductInfo)
    (c : String) (e : Err)
    (hp : p ∈ PRODUCTS) (hc : c ∈ find_config_directories p fs)
    (he : product_version c = .error e) :
    (∃ e', selectConfigDir p fs = .error e') ∧
    ∃ msg tb, main_run fs = (Envelope.error msg tb, 1) := by
  obtain ⟨e', he'⟩ := pyMax_error_of_mem product_version _ c e hc he
  have hsel : selectConfigDir p fs = .error e' := he'
  exact ⟨⟨e', hsel⟩,
    main_run_of_product_error fs p e' hp
      (product_projects_of_latest_error p fs e'
        (find_latest_of_select_error p fs e' hsel))⟩

/-- Witness for the amended C1. -/
theorem c1_amended_malformed_candidate_aborts_witness :
    (∃ e', selectConfigDir prodIdea fsMalformed = .error e') ∧
    ∃ msg tb, main_run fsMalformed = (Envelope.error msg tb, 1) :=
  c1_amended_malformed_candidate_aborts fsMalformed prodIdea
    "/home/u/.config/JetBrains/IntelliJIdeaFoo"
    (.valueError
      "Not a valid IDEA config directory: /home/u/.config/JetBrains/IntelliJIdeaFoo")
    (by decide) (by decide) (by rfl)

theorem exceptMapM_ok_of_all {α β : Type} (f : α → Except Err β) :
    ∀ (l : List α), (∀ a ∈ l, ∃ b, f a = .ok b) →
      ∃ out, exceptMapM f l = .ok out := by
  intro l
  induction l with
  | nil => intro _; exact ⟨[], rfl⟩
  | cons x xs ih =>
    intro hall
    obtain ⟨y, hy⟩ := hall x (List.mem_cons_self _ _)
    obtain ⟨ys, hys⟩ := ih (fun a ha => hall a (List.mem_cons_of_mem _ ha))
    exact ⟨y :: ys, by simp only [exceptMapM, hy, hys]⟩

theorem legacyAttr_ok_iff (attrs : List (String × String)) (s : String) :
    legacyAttr attrs = .ok s ↔
      ∃ v, lookupAttr "value" attrs = some v ∧ s = replaceUserHome v := by
  cases h : lookupAttr "value" attrs with
  | some v => simp [legacyAttr, h, eq_comm]
  | none => simp [legacyAttr, h]

theorem modernAttr_ok_iff (attrs : List (String × String)) (s : String) :
    modernAttr attrs = .ok s ↔
      ∃ v, lookupAttr "key" attrs = some v ∧ s = replaceUserHome v := by
  cases h : lookupAttr "key" attrs with
  | some v => simp [modernAttr, h, eq_comm]
  | none => simp [modernAttr, h]

/-- Claim C6: on a well-formed registry document the parser returns the
set union of the `$USER_HOME$`-substituted legacy `value` attributes and
modern `key` attributes: every extracted path appears (and appears only
once — the list has no duplicates), nothing else appears, and a missing
location simply contributes nothing. -/
theorem c6_parser_set_union (doc : XMLDoc)
    (hleg : ∀ attrs ∈ doc.legacyElems, ∃ v, lookupAttr "value" attrs = some v)
    (hmod : ∀ attrs ∈ doc.modernElems, ∃ v, lookupAttr "key" attrs = some v) :
    ∃ l, extract_paths doc = .ok l ∧ l.Nodup ∧
      ∀ s, s ∈ l ↔
        ((∃ attrs ∈ doc.legacyElems, ∃ v,
            lookupAttr "value" attrs = some v ∧ s = replaceUserHome v) ∨
         (∃ attrs ∈ doc.modernElems, ∃ v,
            lookupAttr "key" attrs = some v ∧ s = replaceUserHome v)) := by
  have h1ex : ∀ a ∈ doc.legacyElems, ∃ b, legacyAttr a = .ok b := by
    intro a ha
    obtain ⟨v, hv⟩ := hleg a ha
    exact ⟨replaceUserHome v, (legacyAttr_ok_iff a _).mpr ⟨v, hv, rfl⟩⟩
  have h2ex : ∀ a ∈ doc.modernElems, ∃ b, modernAttr a = .ok b := by
    intro a ha
    obtain ⟨v, hv⟩ := hmod a ha
    exact ⟨replaceUserHome v, (modernAttr_ok_iff a _).mpr ⟨v, hv, rfl⟩⟩
  obtain ⟨l1, h1⟩ := exceptMapM_ok_of_all legacyAttr doc.legacyElems h1ex
  obtain ⟨l2, h2⟩ := exceptMapM_ok_of_all modernAttr doc.modernElems h2ex
  have hleg' : extract_legacy doc = .ok l1 := h1
  have hmod' : extract_modern doc = .ok l2 := h2
  refine ⟨(l1 ++ l2).dedup, by simp only [extract_paths, hleg', hmod'], List.nodup_dedup _, ?_⟩
  intro s
  rw [List.mem_dedup, List.mem_append]
  have m1 := forall₂_ok_mem_iff legacyAttr doc.legacyElems l1
    (exceptMapM_ok_forall₂ legacyAttr doc.legacyElems l1 h1) s
  have m2 := forall₂_ok_mem_iff modernAttr doc.modernElems l2
    (exceptMapM_ok_forall₂ modernAttr doc.modernElems l2 h2) s
  rw [m1, m2]
  constructor
  · rintro (⟨a, ha, hfa⟩ | ⟨a, ha, hfa⟩)
    · obtain ⟨v, hv, hs⟩ := (legacyAttr_ok_iff a s).mp hfa
      exact Or.inl ⟨a, ha, v, hv, hs⟩
    · obtain ⟨v, hv, hs⟩ := (modernAttr_ok_iff a s).mp hfa
      exact Or.inr ⟨a, ha, v, hv, hs⟩
  · rintro (⟨a, ha, v, hv, hs⟩ | ⟨a, ha, v, hv, hs⟩)
    · exact Or.inl ⟨a, ha, (legacyAttr_ok_iff a s).mpr ⟨v, hv, hs⟩⟩
    · exact Or.inr ⟨a, ha, (modernAttr_ok_iff a s).mpr ⟨v, hv, hs⟩⟩

/-- A registry document carrying the same path in both schema locations,
through the `$USER_HOME$` shorthand. -/
def docBoth : XMLDoc := ⟨[[("value", "$USER_HOME$/a")]], [[("key", "$USER_HOME$/a")]]⟩

/-- Witness for C6 on `docBoth`: the union is computed, duplicate-free. -/
theorem c6_parser_set_union_witness :
    ∃ l, extract_paths docBoth = .ok l ∧ l.Nodup ∧
      ∀ s, s ∈ l ↔
        ((∃ attrs ∈ docBoth.legacyElems, ∃ v,
            lookupAttr "value" attrs = some v ∧ s = replaceUserHome v) ∨
         (∃ attrs ∈ docBoth.modernElems, ∃ v,
            lookupAttr "key" attrs = some v ∧ s = replaceUserHome v)) :=
  c6_parser_set_union docBoth
    (by
      intro attrs ha
      rw [show docBoth.legacyElems = [[("value", "$USER_HOME$/a")]] from rfl] at ha
      rcases List.mem_cons.mp ha with rfl | h
      · exact ⟨"$USER_HOME$/a", rfl⟩
      · exact absurd h (List.not_mem_nil attrs))
    (by
      intro attrs ha
      rw [show docBoth.modernElems = [[("key", "$USER_HOME$/a")]] from rfl] at ha
      rcases List.mem_cons.mp ha with rfl | h
      · exact ⟨"$USER_HOME$/a", rfl⟩
      · exact absurd h (List.not_mem_nil attrs))

/-! ### String decomposition lemmas for the identifier -/

theorem strDataAppend (a b : String) : (a ++ b).data = a.data ++ b.data := by
  cases a
  cases b
  rfl

theorem strExt (a b : String) (h : a.data = b.data) : a = b := by
  cases a
  cases b
  exact congrArg String.mk h

theorem isAbsolute_head (s : String) (h : isAbsolute s = true) :
    ∃ t, s.data = '/' :: t := by
  unfold isAbsolute at h
  cases hd : s.data with
  | nil => rw [hd] at h; simp at h
  | cons c t =>
    rw [hd] at h
    simp only [beq_iff_eq] at h
    exact ⟨t, by rw [h]⟩

/-- If two key-dash-path concatenations agree, the keys contain no slash
and both paths open with a slash, then keys and paths agree separately
(the first slash pins the split point). -/
theorem keySplit : ∀ (k1 k2 t1 t2 : List Char),
    '/' ∉ k1 → '/' ∉ k2 →
    k1 ++ '-' :: '/' :: t1 = k2 ++ '-' :: '/' :: t2 → k1 = k2 ∧ t1 = t2 := by
  intro k1
  induction k1 with
  | nil =>
    intro k2 t1 t2 _ hk2 h
    cases k2 with
    | nil =>
      simp only [List.nil_append, List.cons.injEq, true_and] at h
      exact ⟨rfl, h⟩
    | cons b k2' =>
      simp only [List.nil_append, List.cons_append, List.cons.injEq] at h
      obtain ⟨hb, h'⟩ := h
      cases k2' with
      | nil =>
        simp only [List.nil_append, List.cons.injEq] at h'
        exact absurd h'.1 (by decide)
      | cons c k2'' =>
        simp only [List.cons_append, List.cons.injEq] at h'
        exact absurd
          (List.mem_cons_of_mem b
            (show ('/' : Char) ∈ c :: k2'' by
              rw [h'.1]
              exact List.mem_cons_self c k2''))
          hk2
  | cons a k1' ih =>
    intro k2 t1 t2 hk1 hk2 h
    cases k2 with
    | nil =>
      simp only [List.cons_append, List.nil_append, List.cons.injEq] at h
      obtain ⟨ha, h'⟩ := h
      cases k1' with
      | nil =>
        simp only [List.nil_append, List.cons.injEq] at h'
        exact absurd h'.1 (by decide)
      | cons c k1'' =>
        simp only [List.cons_append, List.cons.injEq] at h'
        exact absurd
          (List.mem_cons_of_mem a
            (show ('/' : Char) ∈ c :: k1'' by
              rw [← h'.1]
              exact List.mem_cons_self c k1''))
          hk1
    | cons b k2' =>
      simp only [List.cons_append, List.cons.injEq] at h
      obtain ⟨hab, h'⟩ := h
      obtain ⟨he, ht⟩ := ih k2' t1 t2
        (fun hm => hk1 (List.mem_cons_of_mem a hm))
        (fun hm => hk2 (List.mem_cons_of_mem b hm)) h'
      exact ⟨by rw [hab, he], ht⟩

/-- No catalog product key contains a slash. -/
theorem keyNoSlash : ∀ p ∈ PRODUCTS, ('/' : Char) ∉ p.key.data := by decide

/-- A record built by `get_project` carries the namespaced identifier. -/
theorem get_project_ok_id (fs : FS) (p : ProductInfo) (s : String) (r : ProjectRecord)
    (h : get_project fs p s = .ok r) :
    r.id = "jetbrains-search-provider-" ++ p.key ++ "-" ++ expanduser fs.home s := by
  simp only [get_project] at h
  split at h
  · cases h; rfl
  · cases h; rfl
  · exact Except.noConfusion h

/-- Counterexample for C2: two distinct (product, path) combinations in
one run produce records with the SAME id, because two different raw
paths (`~/foo` written via `$USER_HOME$`, and `/home/u/foo`) expand to
the same absolute path, which is all the id embeds. -/
theorem c2_counterexample :
    find_recent_projects prodIdea
      "/home/u/.config/JetBrains/IntelliJIdea2023.1/options/recentProjects.xml"
      fsTwoSpellings =
      .ok [⟨"jetbrains-search-provider-idea-/home/u/foo", "foo", "~/foo", "/home/u/foo"⟩,
           ⟨"jetbrains-search-provider-idea-/home/u/foo", "foo", "/home/u/foo", "/home/u/foo"⟩] ∧
    ("~/foo" : String) ≠ "/home/u/foo" :=
  ⟨rfl, by decide⟩

/-- Claim C2 (amended): the id determines and is determined by the pair
(product key, expanded path): for catalog products and paths whose
expanded form is absolute, two records' ids coincide exactly when the
product keys and the expanded paths coincide.  Ids therefore never
collide across distinct products, but distinct raw paths expanding to
the same absolute path do collide. -/
theorem c2_amended_id_characterization (fs : FS) (p1 p2 : ProductInfo)
    (s1 s2 : String) (r1 r2 : ProjectRecord)
    (hp1 : p1 ∈ PRODUCTS) (hp2 : p2 ∈ PRODUCTS)
    (h1 : get_project fs p1 s1 = .ok r1) (h2 : get_project fs p2 s2 = .ok r2)
    (habs1 : isAbsolute (expanduser fs.home s1) = true)
    (habs2 : isAbsolute (expanduser fs.home s2) = true) :
    r1.id = r2.id ↔
      (p1.key = p2.key ∧ expanduser fs.home s1 = expanduser fs.home s2) := by
  have hid1 := get_project_ok_id fs p1 s1 r1 h1
  have hid2 := get_project_ok_id fs p2 s2 r2 h2
  constructor
  · intro hid
    rw [hid1, hid2] at hid
    have hdata := congrArg String.data hid
    simp only [strDataAppend] at hdata
    obtain ⟨t1, he1⟩ := isAbsolute_head _ habs1
    obtain ⟨t2, he2⟩ := isAbsolute_head _ habs2
    rw [he1, he2] at hdata
    simp only [List.append_assoc, List.singleton_append] at hdata
    have h5 := List.append_cancel_left hdata
    obtain ⟨hkeq, hteq⟩ := keySplit p1.key.data p2.key.data t1 t2
      (keyNoSlash p1 hp1) (keyNoSlash p2 hp2) h5
    refine ⟨strExt _ _ hkeq, strExt _ _ ?_⟩
    rw [he1, he2, hteq]
  · rintro ⟨hkeq, heeq⟩
    rw [hid1, hid2, hkeq, heeq]

/-- Witness for the amended C2. -/
theorem c2_amended_id_characterization_witness :
    (⟨"jetbrains-search-provider-idea-/a", "a", "/a", "/a"⟩ : ProjectRecord).id =
      (⟨"jetbrains-search-provider-idea-/a", "a", "/a", "/a"⟩ : ProjectRecord).id ↔
    (prodIdea.key = prodIdea.key ∧
      expanduser fsEmpty.home "/a" = expanduser fsEmpty.home "/a") :=
  c2_amended_id_characterization fsEmpty prodIdea prodIdea "/a" "/a"
    ⟨"jetbrains-search-provider-idea-/a", "a", "/a", "/a"⟩
    ⟨"jetbrains-search-provider-idea-/a", "a", "/a", "/a"⟩
    (by decide) (by decide) (by rfl) (by rfl) (by rfl) (by rfl)

/-! ### Version-token pattern lemmas (Claim C7) -/

/-- The specification's version-token pattern, as a full-string predicate:
one to four digits, a dot, one to two digits (`\d\x7b1,4\x7d\.\d\x7b1,2\x7d`
matched against the whole substring). -/
def isVersionToken (cs : List Char) : Bool :=
  match splitOnChar '.' cs with
  | [a, b] => a.all Char.isDigit && b.all Char.isDigit &&
      decide (1 ≤ a.length) && decide (a.length ≤ 4) &&
      decide (1 ≤ b.length) && decide (b.length ≤ 2)
  | _ => false

theorem splitOnChar_ne_nil (sep : Char) : ∀ cs, splitOnChar sep cs ≠ [] := by
  intro cs
  cases cs with
  | nil => simp [splitOnChar]
  | cons c t =>
    simp only [splitOnChar]
    split
    · simp
    · split
      · simp
      · simp

theorem splitOnChar_no_sep (sep : Char) :
    ∀ cs, sep ∉ cs → splitOnChar sep cs = [cs] := by
  intro cs
  induction cs with
  | nil => intro _; rfl
  | cons c t ih =>
    intro h
    have hc : ¬ c = sep := fun he => h (he ▸ List.mem_cons_self c t)
    have ht : sep ∉ t := fun hm => h (List.mem_cons_of_mem c hm)
    simp only [splitOnChar, if_neg hc, ih ht]

theorem splitOnChar_pair (sep : Char) :
    ∀ (a b : List Char), sep ∉ a → sep ∉ b →
      splitOnChar sep (a ++ sep :: b) = [a, b] := by
  intro a
  induction a with
  | nil =>
    intro b _ hb
    show splitOnChar sep (sep :: b) = [[], b]
    simp [splitOnChar, splitOnChar_no_sep sep b hb]
  | cons c a' ih =>
    intro b ha hb
    have hc : ¬ c = sep := fun he => ha (he ▸ List.mem_cons_self c a')
    have ha' : sep ∉ a' := fun hm => ha (List.mem_cons_of_mem c hm)
    show splitOnChar sep (c :: (a' ++ sep :: b)) = [c :: a', b]
    simp only [splitOnChar, if_neg hc]
    rw [ih b ha' hb]

theorem splitOnChar_single_inv (sep : Char) :
    ∀ cs b, splitOnChar sep cs = [b] → cs = b := by
  intro cs
  induction cs with
  | nil =>
    intro b h
    simp only [splitOnChar, List.cons.injEq, and_true] at h
    exact h
  | cons c t ih =>
    intro b h
    simp only [splitOnChar] at h
    split at h
    · next hc =>
      simp only [List.cons.injEq] at h
      exact absurd h.2 (splitOnChar_ne_nil sep t)
    · next hc =>
      split at h
      · next hsplit => exact absurd hsplit (splitOnChar_ne_nil sep t)
      · next hh r hsplit =>
        simp only [List.cons.injEq] at h
        obtain ⟨hb, hr⟩ := h
        subst hr
        exact hb ▸ congrArg (List.cons c) (ih hh (by rw [hsplit]))

theorem splitOnChar_pair_inv (sep : Char) :
    ∀ cs a b, splitOnChar sep cs = [a, b] → cs = a ++ sep :: b := by
  intro cs
  induction cs with
  | nil =>
    intro a b h
    simp only [splitOnChar, List.cons.injEq, and_true] at h
    exact absurd h.2 (by simp)
  | cons c t ih =>
    intro a b h
    simp only [splitOnChar] at h
    split at h
    · next hc =>
      simp only [List.cons.injEq] at h
      obtain ⟨ha, ht⟩ := h
      subst hc
      rw [← ha, List.nil_append]
      exact congrArg (List.cons c) (splitOnChar_single_inv c t b (by rw [ht]))
    · next hc =>
      split at h
      · next hsplit => exact absurd hsplit (splitOnChar_ne_nil sep t)
      · next hh r hsplit =>
        simp only [List.cons.injEq] at h
        obtain ⟨ha, hr⟩ := h
        subst hr
        rw [← ha, List.cons_append]
        exact congrArg (List.cons c) (ih hh b (by rw [hsplit]))

theorem no_sep_of_all_digit (cs : List Char) (h : cs.all Char.isDigit = true) :
    ('.' : Char) ∉ cs := by
  intro hm
  have := (List.all_eq_true.mp h) '.' hm
  simp [Char.isDigit] at this

theorem isVersionToken_iff (cs : List Char) :
    isVersionToken cs = true ↔
      ∃ a b, cs = a ++ '.' :: b ∧ a.all Char.isDigit = true ∧
        b.all Char.isDigit = true ∧ 1 ≤ a.length ∧ a.length ≤ 4 ∧
        1 ≤ b.length ∧ b.length ≤ 2 := by
  constructor
  · intro h
    unfold isVersionToken at h
    split at h
    · next a b hsplit =>
      simp only [Bool.and_eq_true, decide_eq_true_eq] at h
      exact ⟨a, b, splitOnChar_pair_inv '.' cs a b hsplit,
        h.1.1.1.1.1, h.1.1.1.1.2, h.1.1.1.2, h.1.1.2, h.1.2, h.2⟩
    · exact Bool.noConfusion h
  · rintro ⟨a, b, rfl, hda, hdb, h1, h2, h3, h4⟩
    unfold isVersionToken
    rw [splitOnChar_pair '.' a b (no_sep_of_all_digit a hda) (no_sep_of_all_digit b hdb)]
    simp [hda, hdb, h1, h2, h3, h4]

theorem takeDigits?_some (n : Nat) (cs : List Char) :
    ∀ a rest, takeDigits? n cs = some (a, rest) →
      a = cs.take n ∧ rest = cs.drop n ∧ a.length = n ∧
        a.all Char.isDigit = true := by
  intro a rest h
  unfold takeDigits? at h
  split at h
  · next hcond =>
    simp only [Bool.and_eq_true, decide_eq_true_eq] at hcond
    simp only [Option.some.injEq, Prod.mk.injEq] at h
    exact ⟨h.1.symm, h.2.symm, h.1 ▸ hcond.1, h.1 ▸ hcond.2⟩
  · exact Option.noConfusion h

theorem takeDigits?_pos (n : Nat) (cs : List Char)
    (h1 : (cs.take n).length = n) (h2 : (cs.take n).all Char.isDigit = true) :
    takeDigits? n cs = some (cs.take n, cs.drop n) := by
  unfold takeDigits?
  rw [if_pos]
  simp [h1, h2]

theorem matchTail_some (cs : List Char) :
    ∀ b, matchTail cs = some b →
      ∃ rest, cs = b ++ rest ∧ b.all Char.isDigit = true ∧
        1 ≤ b.length ∧ b.length ≤ 2 := by
  intro b h
  unfold matchTail at h
  split at h
  · next b1 r h2 =>
    obtain ⟨hb, _, hlen, hdig⟩ := takeDigits?_some 2 cs b1 r h2
    simp only [Option.some.injEq] at h
    subst h
    refine ⟨cs.drop 2, by rw [hb]; exact (List.take_append_drop 2 cs).symm,
      hdig, ?_, ?_⟩
    · omega
    · omega
  · split at h
    · next b1 r h1 =>
      obtain ⟨hb, _, hlen, hdig⟩ := takeDigits?_some 1 cs b1 r h1
      simp only [Option.some.injEq] at h
      subst h
      refine ⟨cs.drop 1, by rw [hb]; exact (List.take_append_drop 1 cs).symm,
        hdig, ?_, ?_⟩
      · omega
      · omega
    · exact Option.noConfusion h

theorem matchTail_isSome (d : Char) (t : List Char) (hd : d.isDigit = true) :
    ∃ b, matchTail (d :: t) = some b := by
  unfold matchTail
  split
  · next b1 r h2 => exact ⟨b1, rfl⟩
  · split
    · next b1 r h1 => exact ⟨b1, rfl⟩
    · next h1 =>
      exfalso
      have hpos := takeDigits?_pos 1 (d :: t) (by simp) (by simp [hd])
      rw [hpos] at h1
      exact Option.noConfusion h1

theorem matchWhole_some (n : Nat) (cs : List Char) (tok : List Char)
    (h : matchWhole n cs = some tok) :
    ∃ a b rest, tok = a ++ '.' :: b ∧ cs = a ++ '.' :: (b ++ rest) ∧
      a.length = n ∧ a.all Char.isDigit = true ∧ b.all Char.isDigit = true ∧
      1 ≤ b.length ∧ b.length ≤ 2 := by
  unfold matchWhole at h
  split at h
  · exact Option.noConfusion h
  · next a rest0 htd =>
    obtain ⟨ha, hrest, hlen, hdig⟩ := takeDigits?_some n cs a rest0 htd
    split at h
    · next rest2 =>
      split at h
      · next b hmt =>
        simp only [Option.some.injEq] at h
        obtain ⟨rest, hr2, hdb, hb1, hb2⟩ := matchTail_some rest2 b hmt
        refine ⟨a, b, rest, h.symm, ?_, hlen, hdig, hdb, hb1, hb2⟩
        have hcs := List.take_append_drop n cs
        rw [← ha, ← hrest] at hcs
        rw [← hcs, hr2]
      · exact Option.noConfusion h
    · exact Option.noConfusion h

theorem matchVersionAt_some_src (cs : List Char) (tok : List Char)
    (h : matchVersionAt cs = some tok) :
    ∃ n, 1 ≤ n ∧ n ≤ 4 ∧ matchWhole n cs = some tok := by
  unfold matchVersionAt at h
  split at h
  · next t e4 => exact ⟨4, by omega, by omega, by rw [e4]; exact h⟩
  · next e4 =>
    split at h
    · next t e3 => exact ⟨3, by omega, by omega, by rw [e3]; exact h⟩
    · next e3 =>
      split at h
      · next t e2 => exact ⟨2, by omega, by omega, by rw [e2]; exact h⟩
      · next e2 => exact ⟨1, by omega, by omega, h⟩

theorem matchVersionAt_none (cs : List Char) (h : matchVersionAt cs = none) :
    ∀ n, 1 ≤ n → n ≤ 4 → matchWhole n cs = none := by
  unfold matchVersionAt at h
  split at h
  · exact Option.noConfusion h
  · next e4 =>
    split at h
    · exact Option.noConfusion h
    · next e3 =>
      split at h
      · exact Option.noConfusion h
      · next e2 =>
        intro n h1 h4
        interval_cases n
        · exact h
        · exact e2
        · exact e3
        · exact e4

theorem matchVersionAt_of_token (a b rest : List Char)
    (hda : a.all Char.isDigit = true) (h1 : 1 ≤ a.length) (h4 : a.length ≤ 4)
    (hdb : b.all Char.isDigit = true) (hb1 : 1 ≤ b.length) :
    ∃ tok, matchVersionAt (a ++ '.' :: (b ++ rest)) = some tok := by
  obtain ⟨d, b', rfl⟩ : ∃ d b', b = d :: b' := by
    cases b with
    | nil => simp at hb1
    | cons d b' => exact ⟨d, b', rfl⟩
  have ht : (a ++ '.' :: (d :: b' ++ rest)).take a.length = a := List.take_left a _
  have hd : (a ++ '.' :: (d :: b' ++ rest)).drop a.length = '.' :: (d :: b' ++ rest) :=
    List.drop_left a _
  have htd : takeDigits? a.length (a ++ '.' :: (d :: b' ++ rest)) =
      some (a, '.' :: (d :: b' ++ rest)) := by
    have hpos := takeDigits?_pos a.length (a ++ '.' :: (d :: b' ++ rest))
      (by rw [ht]) (by rw [ht]; exact hda)
    rw [ht, hd] at hpos
    exact hpos
  have hdig : d.isDigit = true := by
    simp only [List.all_cons, Bool.and_eq_true] at hdb
    exact hdb.1
  obtain ⟨b2, hmt⟩ := matchTail_isSome d (b' ++ rest) hdig
  have hw : matchWhole a.length (a ++ '.' :: (d :: b' ++ rest)) =
      some (a ++ '.' :: b2) := by
    simp only [List.cons_append] at htd
    simp only [matchWhole, List.cons_append, htd, hmt]
  cases hv : matchVersionAt (a ++ '.' :: (d :: b' ++ rest)) with
  | some tok => exact ⟨tok, rfl⟩
  | none =>
    exfalso
    have hn := matchVersionAt_none _ hv a.length h1 h4
    rw [hw] at hn
    exact Option.noConfusion hn

theorem matchVersionAt_of_tokenAt (cs : List Char) (n : Nat)
    (h : isVersionToken (cs.take n) = true) :
    ∃ tok, matchVersionAt cs = some tok := by
  obtain ⟨a, b, hdec, hda, hdb, h1, h4, hb1, hb2⟩ := (isVersionToken_iff _).mp h
  have hcs : cs = a ++ '.' :: (b ++ cs.drop n) := by
    conv_lhs => rw [← List.take_append_drop n cs, hdec]
    simp [List.append_assoc]
  rw [hcs]
  exact matchVersionAt_of_token a b (cs.drop n) hda h1 h4 hdb hb1

theorem matchVersionAt_some_token (cs : List Char) (tok : List Char)
    (h : matchVersionAt cs = some tok) :
    cs.take tok.length = tok ∧ isVersionToken tok = true := by
  obtain ⟨n, hn1, _, hw⟩ := matchVersionAt_some_src cs tok h
  obtain ⟨a, b, rest, htok, hcs, hlen, hda, hdb, hb1, hb2⟩ :=
    matchWhole_some n cs tok hw
  constructor
  · rw [hcs, htok]
    have hassoc : a ++ '.' :: (b ++ rest) = (a ++ '.' :: b) ++ rest := by
      simp [List.append_assoc]
    rw [hassoc, List.take_left]
  · exact (isVersionToken_iff tok).mpr
      ⟨a, b, htok, hda, hdb, by omega, by omega, hb1, hb2⟩

theorem reSearch_none (cs : List Char) (h : reSearch cs = none) :
    ∀ i, matchVersionAt (cs.drop i) = none := by
  induction cs with
  | nil =>
    intro i
    rw [List.drop_nil]
    exact h
  | cons c t ih =>
    intro i
    simp only [reSearch] at h
    split at h
    · exact Option.noConfusion h
    · next hm =>
      cases i with
      | zero => exact hm
      | succ i' => exact ih h i'

theorem reSearch_some (cs : List Char) (tok : List Char) (h : reSearch cs = some tok) :
    ∃ i, matchVersionAt (cs.drop i) = some tok ∧
      ∀ j, j < i → matchVersionAt (cs.drop j) = none := by
  induction cs with
  | nil =>
    refine ⟨0, ?_, ?_⟩
    · rw [List.drop_nil]
      exact h
    · intro j hj
      exact absurd hj (Nat.not_lt_zero j)
  | cons c t ih =>
    simp only [reSearch] at h
    split at h
    · next m hm =>
      simp only [Option.some.injEq] at h
      subst h
      exact ⟨0, hm, fun j hj => absurd hj (Nat.not_lt_zero j)⟩
    · next hm =>
      obtain ⟨i, hi, hmin⟩ := ih h
      refine ⟨i + 1, hi, ?_⟩
      intro j hj
      cases j with
      | zero => exact hm
      | succ j' => exact hmin j' (by omega)

/-- Claim C7: when some substring of the directory's base name matches
the version pattern, extraction succeeds with the leftmost match (no
earlier position carries any match) split on its dot into the integer
pair; when no substring matches, extraction fails with a `ValueError`
naming the offending path. -/
theorem c7_version_extraction (dir : String) :
    ((∃ i n, isVersionToken (((baseName dir).data.drop i).take n) = true) →
      ∃ i tok a b,
        (∀ j, j < i → ∀ n,
          isVersionToken (((baseName dir).data.drop j).take n) = false) ∧
        matchVersionAt ((baseName dir).data.drop i) = some tok ∧
        ((baseName dir).data.drop i).take tok.length = tok ∧
        isVersionToken tok = true ∧
        splitOnChar '.' tok = [a, b] ∧
        product_version dir = .ok (digitsToNat a, digitsToNat b)) ∧
    ((∀ i n, isVersionToken (((baseName dir).data.drop i).take n) = false) →
      product_version dir =
        .error (.valueError ("Not a valid IDEA config directory: " ++ dir))) := by
  constructor
  · rintro ⟨i0, n0, htok⟩
    obtain ⟨tok0, hm0⟩ := matchVersionAt_of_tokenAt _ n0 htok
    cases hs : reSearch (baseName dir).data with
    | none =>
      exfalso
      have hc := reSearch_none _ hs i0
      rw [hm0] at hc
      exact Option.noConfusion hc
    | some tok =>
      obtain ⟨i, hi, hmin⟩ := reSearch_some _ tok hs
      obtain ⟨htake, htokv⟩ := matchVersionAt_some_token _ tok hi
      obtain ⟨a, b, hdec, hda, hdb, h1, h4, hb1, hb2⟩ :=
        (isVersionToken_iff tok).mp htokv
      have hsplit : splitOnChar '.' tok = [a, b] := by
        rw [hdec]
        exact splitOnChar_pair '.' a b
          (no_sep_of_all_digit a hda) (no_sep_of_all_digit b hdb)
      refine ⟨i, tok, a, b, ?_, hi, htake, htokv, hsplit, ?_⟩
      · intro j hj n
        cases hval : isVersionToken (((baseName dir).data.drop j).take n) with
        | false => rfl
        | true =>
          exfalso
          obtain ⟨tok', hm'⟩ := matchVersionAt_of_tokenAt _ n hval
          have hc := hmin j hj
          rw [hm'] at hc
          exact Option.noConfusion hc
      · simp only [product_version, hs, hsplit]
  · intro hno
    cases hs : reSearch (baseName dir).data with
    | some tok =>
      exfalso
      obtain ⟨i, hi, _⟩ := reSearch_some _ tok hs
      obtain ⟨htake, htokv⟩ := matchVersionAt_some_token _ tok hi
      have hc := hno i tok.length
      rw [htake, htokv] at hc
      exact Bool.noConfusion hc
    | none =>
      simp only [product_version, hs]

/-- Witness for C7: `IntelliJIdea2023.2` yields a first match whose split
drives `product_version`. -/
theorem c7_version_extraction_witness :
    ∃ i tok a b,
      (∀ j, j < i → ∀ n,
        isVersionToken (((baseName "IntelliJIdea2023.2").data.drop j).take n) = false) ∧
      matchVersionAt ((baseName "IntelliJIdea2023.2").data.drop i) = some tok ∧
      ((baseName "IntelliJIdea2023.2").data.drop i).take tok.length = tok ∧
      isVersionToken tok = true ∧
      splitOnChar '.' tok = [a, b] ∧
      product_version "IntelliJIdea2023.2" = .ok (digitsToNat a, digitsToNat b) :=
  (c7_version_extraction "IntelliJIdea2023.2").1 ⟨12, 6, by rfl⟩
